import Mathlib

/-!
A shallow embedding of the LINDA nowcast core (`pysteps/nowcasts/linda.py`)
and proofs about it.

Numeric arrays are embedded over the real numbers: 2D kernels become
`List (List ℝ)` grids, precipitation fields become entry functions with
explicit dimensions, and IEEE non-finite entries (`nan`/`inf`) are modelled
by `Option ℝ` with `none` standing for a non-finite value.  Python's `int()`
truncation, `np.arange`, and the `arctan` of an infinite quotient are
embedded explicitly where the source relies on them.  Iterative numerical
optimizers from scipy are external collaborators; they are modelled from
their documented contracts (bounded search intervals, feasibility-preserving
constraints, best-effort minimization) where a claim depends on them.
-/

open scoped Classical

noncomputable section

/-- Python `int(x)`: truncation of a real toward zero. -/
def truncZ (x : ℝ) : ℤ := if 0 ≤ x then ⌊x⌋ else -⌊-x⌋

/-- `np.arange(a, b + 1)` over the integers: the list `a, a + 1, ..., b`
(empty when `b < a`). -/
def arangeZ (a b : ℤ) : List ℤ :=
  (List.range (b + 1 - a).toNat).map (fun i : ℕ => a + (i : ℤ))

/-- The coordinate ranges used by both kernel builders: `np.arange(a, b + 1)`,
re-issued as `np.arange(a - 1, b + 1)` when the first range has even length,
so that the kernel support has a well-defined center. -/
def oddArange (a b : ℤ) : List ℤ :=
  if (arangeZ a b).length % 2 = 0 then arangeZ (a - 1) b else arangeZ a b

/-- `np.arctan(num / den)` as numpy evaluates it: when `den = 0` and
`num ≠ 0` the quotient is `±inf` and its arctangent is `±π/2`.  (The call
sites in `_compute_ellipse_bbox` never reach `num = den = 0` when the scale
parameters are positive, because `sin` and `cos` of one angle cannot both
vanish.) -/
def pyAtanDiv (num den : ℝ) : ℝ :=
  if den = 0 then
    if 0 < num then Real.pi / 2 else if num < 0 then -(Real.pi / 2) else 0
  else Real.arctan (num / den)

/-- Half-width `w` computed by the general branch of `_compute_ellipse_bbox`:
`alpha = arctan(-r2*sin(phi_r) / (r1*cos(phi_r)))`, then
`w = r1*cos(alpha)*cos(phi_r) - r2*sin(alpha)*sin(phi_r)`. -/
def bboxW (phr r1 r2 : ℝ) : ℝ :=
  let a := pyAtanDiv (-(r2 * Real.sin phr)) (r1 * Real.cos phr)
  r1 * Real.cos a * Real.cos phr - r2 * Real.sin a * Real.sin phr

/-- Half-height `h` computed by the general branch of `_compute_ellipse_bbox`:
`alpha = arctan(r2*cos(phi_r) / (r1*sin(phi_r)))`, then
`h = r1*cos(alpha)*sin(phi_r) + r2*sin(alpha)*cos(phi_r)`. -/
def bboxH (phr r1 r2 : ℝ) : ℝ :=
  let a := pyAtanDiv (r2 * Real.cos phr) (r1 * Real.sin phr)
  r1 * Real.cos a * Real.sin phr + r2 * Real.sin a * Real.cos phr

/-- `_compute_ellipse_bbox(phi, sigma1, sigma2, cutoff)`: the axis-aligned
bounding box `(-|h|, -|w|, |h|, |w|)` of the ellipse with semi-axes
`cutoff*sigma1`, `cutoff*sigma2` rotated by `phi` degrees; rotation angles
within `1e-6` rad of `π/2` or `3π/2` take the degenerate branch. -/
def compute_ellipse_bbox (phi sigma1 sigma2 cutoff : ℝ) : ℝ × ℝ × ℝ × ℝ :=
  let r1 := cutoff * sigma1
  let r2 := cutoff * sigma2
  let phr := phi / 180 * Real.pi
  if 1e-6 < |phr - Real.pi / 2| ∧ 1e-6 < |phr - 3 * Real.pi / 2| then
    let w := bboxW phr r1 r2
    let h := bboxH phr r1 r2
    (-|h|, -|w|, |h|, |w|)
  else
    (-|sigma1 * cutoff|, -|sigma2 * cutoff|, |sigma1 * cutoff|, |sigma2 * cutoff|)

/-- The guard of the general (non-degenerate) branch of
`_compute_ellipse_bbox` at rotation angle `phi` in degrees. -/
def bboxGeneralBranch (phi : ℝ) : Prop :=
  1e-6 < |phi / 180 * Real.pi - Real.pi / 2| ∧
  1e-6 < |phi / 180 * Real.pi - 3 * Real.pi / 2|

/-- Value of the anisotropic kernel before normalization at grid point
`(x, y)`: the point is rotated by `R_inv` and
`exp(-((x_r²/sigma1 + y_r²/sigma2)^expo))` is taken.  `sigma1`, `sigma2`
are the already-absolute scale values. -/
def kernelValueAniso (phi sigma1 sigma2 expo : ℝ) (x y : ℝ) : ℝ :=
  let phr := phi / 180 * Real.pi
  let xr := Real.cos phr * x + Real.sin phr * y
  let yr := -(Real.sin phr) * x + Real.cos phr * y
  Real.exp (-((xr ^ 2 / sigma1 + yr ^ 2 / sigma2) ^ expo))

/-- Value of the isotropic kernel before normalization at grid point
`(x, y)`: `exp(-0.5 * ((x/sigma)² + (y/sigma)²))`. -/
def kernelValueIso (sigma : ℝ) (x y : ℝ) : ℝ :=
  Real.exp (-(0.5) * ((x / sigma) ^ 2 + (y / sigma) ^ 2))

/-- `result /= np.sum(result)`: evaluate `v` on the grid `ys × xs` and divide
every entry by the total sum, producing the row-major grid. -/
def normalizeGrid (xs ys : List ℤ) (v : ℤ → ℤ → ℝ) : List (List ℝ) :=
  let total := (ys.map (fun y => (xs.map (fun x => v x y)).sum)).sum
  ys.map (fun y => xs.map (fun x => v x y / total))

/-- `_compute_kernel_anisotropic(params, cutoff)` with
`params = (phi, sigma1, sigma2, expo)`: grid ranges from the ellipse
bounding box (forced odd), Gaussian-power values, normalized to sum 1. -/
def compute_kernel_anisotropic (phi sigma1 sigma2 expo cutoff : ℝ) :
    List (List ℝ) :=
  normalizeGrid
    (oddArange (truncZ (compute_ellipse_bbox phi |sigma1| |sigma2| cutoff).2.1)
               (truncZ (compute_ellipse_bbox phi |sigma1| |sigma2| cutoff).2.2.2))
    (oddArange (truncZ (compute_ellipse_bbox phi |sigma1| |sigma2| cutoff).1)
               (truncZ (compute_ellipse_bbox phi |sigma1| |sigma2| cutoff).2.2.1))
    (fun x y => kernelValueAniso phi |sigma1| |sigma2| expo (x : ℝ) (y : ℝ))

/-- `_compute_kernel_isotropic(params, cutoff)` with `params = (sigma,)`:
symmetric grid ranges `[-sigma*cutoff, sigma*cutoff]` (forced odd), standard
Gaussian values, normalized to sum 1. -/
def compute_kernel_isotropic (sigma cutoff : ℝ) : List (List ℝ) :=
  normalizeGrid
    (oddArange (truncZ (-(sigma * cutoff))) (truncZ (sigma * cutoff)))
    (oddArange (truncZ (-(sigma * cutoff))) (truncZ (sigma * cutoff)))
    (fun x y => kernelValueIso sigma (x : ℝ) (y : ℝ))

/-- Total sum of the entries of a 2D kernel grid. -/
def kernelSum (k : List (List ℝ)) : ℝ := (k.map List.sum).sum

/-- Swap the y- and x-axes of a `(y1, x1, y2, x2)` bounding box, giving
`(x1, y1, x2, y2)`. -/
def bboxAxisSwap (b : ℝ × ℝ × ℝ × ℝ) : ℝ × ℝ × ℝ × ℝ :=
  (b.2.1, b.1, b.2.2.2, b.2.2.1)

/-- A 2D numpy float array: explicit dimensions and an entry function.
`none` models an IEEE non-finite entry (`nan` or `inf`), `some x` a finite
value; entries outside the `m × n` grid are irrelevant. -/
@[ext]
structure PField where
  m : ℕ
  n : ℕ
  ent : ℕ → ℕ → Option ℝ

/-- A 2D convolution kernel: explicit dimensions and finite entries. -/
structure Kernel where
  km : ℕ
  kn : ℕ
  ent : ℕ → ℕ → ℝ

/-- Zero-padded lookup: `g` read inside an `m × n` grid, zero outside. -/
def zeroPad (m n : ℕ) (g : ℕ → ℕ → ℝ) (a b : ℤ) : ℝ :=
  if 0 ≤ a ∧ a < (m : ℤ) ∧ 0 ≤ b ∧ b < (n : ℤ) then g a.toNat b.toNat else 0

/-- `scipy.signal.convolve(g, kernel, mode="same")` on an `m × n` array:
linear 2D convolution with zero-padded boundary, cropped to the input
shape, with the kernel center at `((km-1)/2, (kn-1)/2)`. -/
def conv2same (m n : ℕ) (g : ℕ → ℕ → ℝ) (k : Kernel) (i j : ℕ) : ℝ :=
  ∑ p ∈ Finset.range k.km, ∑ q ∈ Finset.range k.kn,
    k.ent p q *
      zeroPad m n g ((i : ℤ) + (((k.km - 1) / 2 : ℕ) : ℤ) - (p : ℤ))
        ((j : ℤ) + (((k.kn - 1) / 2 : ℕ) : ℤ) - (q : ℤ))

/-- `np.isfinite(field).astype(float)`: the 0/1 finiteness mask. -/
def maskFloat (f : PField) : ℕ → ℕ → ℝ :=
  fun i j => if (f.ent i j).isSome then 1 else 0

/-- The zeroed copy `field.copy(); field[~mask] = 0.0` read as plain reals:
finite entries keep their value, non-finite entries become `0.0`. -/
def zeroFilled (f : PField) : ℕ → ℕ → ℝ := fun i j => (f.ent i j).getD 0

/-- `_masked_convolution(field, kernel)`: start from `np.ones(...) * np.nan`,
assign `convolve(zeroed field, kernel, "same")` at the finite positions and
divide there by `convolve(mask.astype(float), kernel, "same")`; positions
that were non-finite keep `nan`. -/
def masked_convolution (f : PField) (k : Kernel) : PField where
  m := f.m
  n := f.n
  ent := fun i j =>
    if i < f.m ∧ j < f.n ∧ (f.ent i j).isSome then
      some (conv2same f.m f.n (zeroFilled f) k i j /
            conv2same f.m f.n (maskFloat f) k i j)
    else none

/-- An all-ones `m × n` field (every entry finite with value 1). -/
def onesField (m n : ℕ) : PField := ⟨m, n, fun _ _ => some 1⟩

/-- The uniform 3 × 3 averaging kernel with entries `1/9`. -/
def uniformKernel3 : Kernel := ⟨3, 3, fun _ _ => (1 : ℝ) / 9⟩

/-- The identity 1 × 1 kernel. -/
def idKernel : Kernel := ⟨1, 1, fun _ _ => 1⟩

/-- The heap of numpy buffers: the array stored in each buffer id, and an
allocation counter (every live id is below it). -/
structure NpState where
  bufs : ℕ → PField
  next : ℕ

/-- Allocate a fresh buffer holding `a`; returns the new id. -/
def npAlloc (s : NpState) (a : PField) : ℕ × NpState :=
  (s.next, ⟨fun i => if i = s.next then a else s.bufs i, s.next + 1⟩)

/-- In-place write: replace the contents of buffer `bid` by `a`. -/
def npWrite (s : NpState) (bid : ℕ) (a : PField) : NpState :=
  ⟨fun i => if i = bid then a else s.bufs i, s.next⟩

/-- `np.isfinite(field)` stored as a fresh 0/1 array. -/
def maskField (f : PField) : PField :=
  ⟨f.m, f.n, fun i j => if (f.ent i j).isSome then some 1 else some 0⟩

/-- `field[~mask] = 0.0` applied in place: non-finite entries replaced by
the finite value `0.0`. -/
def zeroNonFinite (f : PField) : PField :=
  ⟨f.m, f.n, fun i j => some ((f.ent i j).getD 0)⟩

/-- `np.ones((m, n)) * np.nan`: an all-non-finite array. -/
def nanField (m n : ℕ) : PField := ⟨m, n, fun _ _ => none⟩

/-- `field_c[mask] = convolve(field, kernel, "same")[mask]`: write the
convolution of the zeroed copy `copyZ` into `base` at the positions where
`orig` is finite (the mask was computed from `orig` before the copy was
zeroed). -/
def writeConvAtMask (orig copyZ : PField) (k : Kernel) (base : PField) :
    PField :=
  ⟨base.m, base.n, fun i j =>
    if i < orig.m ∧ j < orig.n ∧ (orig.ent i j).isSome then
      some (conv2same copyZ.m copyZ.n (fun a b => (copyZ.ent a b).getD 0) k i j)
    else base.ent i j⟩

/-- `field_c[mask] /= convolve(mask.astype(float), kernel, "same")[mask]`:
divide `base` in place at the positions where `orig` is finite. -/
def divideConvAtMask (orig : PField) (k : Kernel) (base : PField) : PField :=
  ⟨base.m, base.n, fun i j =>
    if i < orig.m ∧ j < orig.n ∧ (orig.ent i j).isSome then
      match base.ent i j with
      | some x => some (x / conv2same orig.m orig.n (maskFloat orig) k i j)
      | none => none
    else base.ent i j⟩

/-- Read a buffer (an all-finite float array) as a convolution kernel. -/
def kernelOfPField (g : PField) : Kernel :=
  ⟨g.m, g.n, fun i j => (g.ent i j).getD 0⟩

/-- The buffer-level execution of `_masked_convolution(field, kernel)`:
`mask = np.isfinite(field)` allocates, `field = field.copy()` allocates and
rebinds the local name, `field[~mask] = 0.0` writes only to the copy,
`field_c = np.ones(...) * np.nan` allocates, and the two masked assignments
write only to `field_c`; the result is `field_c`'s id.  The kernel buffer is
only read; the caller's two buffers are never written. -/
def masked_convolution_prog (s0 : NpState) (fieldId kernelId : ℕ) :
    ℕ × NpState :=
  let field := s0.bufs fieldId
  let k := kernelOfPField (s0.bufs kernelId)
  let r1 := npAlloc s0 (maskField field)
  let r2 := npAlloc r1.2 field
  let s3 := npWrite r2.2 r2.1 (zeroNonFinite (r2.2.bufs r2.1))
  let r4 := npAlloc s3 (nanField field.m field.n)
  let s5 := npWrite r4.2 r4.1 (writeConvAtMask field (s3.bufs r2.1) k (r4.2.bufs r4.1))
  let s6 := npWrite s5 r4.1 (divideConvAtMask field k (s5.bufs r4.1))
  (r4.1, s6)

/-- A concrete two-buffer heap used to instantiate the frame theorem. -/
def exState : NpState := ⟨fun _ => onesField 1 1, 2⟩

/-- IEEE-modelled addition: any operation with a non-finite operand yields a
non-finite result. -/
def oAdd : Option ℝ → Option ℝ → Option ℝ
  | some a, some b => some (a + b)
  | _, _ => none

/-- IEEE-modelled multiplication. -/
def oMul : Option ℝ → Option ℝ → Option ℝ
  | some a, some b => some (a * b)
  | _, _ => none

/-- IEEE-modelled subtraction. -/
def oSub : Option ℝ → Option ℝ → Option ℝ
  | some a, some b => some (a - b)
  | _, _ => none

/-- IEEE-modelled multiplication by a finite scalar. -/
def oSMul (c : ℝ) : Option ℝ → Option ℝ
  | some a => some (c * a)
  | none => none

/-- IEEE-modelled squaring (`** 2.0`). -/
def oSq : Option ℝ → Option ℝ
  | some a => some (a ^ 2)
  | none => none

/-- `np.nansum` over an `m × n` grid: non-finite terms contribute zero. -/
def nansum2 (m n : ℕ) (g : ℕ → ℕ → Option ℝ) : ℝ :=
  ∑ i ∈ Finset.range m, ∑ j ∈ Finset.range n, (g i j).getD 0

/-- The all-non-finite default entry function for out-of-range stack
indexing. -/
def noneEnt : ℕ → ℕ → Option ℝ := fun _ _ => none

/-- The objective of `_optimize_ar1_params`:
`np.nansum(weights * (field_dst - p * field_src[0]) ** 2.0)`. -/
def ar1_objf (m n : ℕ) (fieldSrc : List (ℕ → ℕ → Option ℝ))
    (fieldDst weights : ℕ → ℕ → Option ℝ) (p : ℝ) : ℝ :=
  nansum2 m n (fun i j =>
    oMul (weights i j)
      (oSq (oSub (fieldDst i j) (oSMul p (fieldSrc.getD 0 noneEnt i j)))))

/-- The objective of `_optimize_ar2_params`:
`np.nansum(weights * (field_dst - (p[0]*field_src[1] + p[1]*field_src[0])) ** 2.0)`. -/
def ar2_objf (m n : ℕ) (fieldSrc : List (ℕ → ℕ → Option ℝ))
    (fieldDst weights : ℕ → ℕ → Option ℝ) (p : ℝ × ℝ) : ℝ :=
  nansum2 m n (fun i j =>
    oMul (weights i j)
      (oSq (oSub (fieldDst i j)
        (oAdd (oSMul p.1 (fieldSrc.getD 1 noneEnt i j))
              (oSMul p.2 (fieldSrc.getD 0 noneEnt i j))))))

/-- Modelled from the spec: `scipy.optimize.minimize_scalar(objf,
method="bounded", bounds=(a, b))`, an external collaborator whose iterative
search is not embedded.  Its contract: the returned point always lies in
`[a, b]`, and when the objective attains a minimum over `[a, b]` a minimizer
is returned (best-effort otherwise). -/
def minimize_scalar_bounded (f : ℝ → ℝ) (a b : ℝ) : ℝ :=
  if h : ∃ x, x ∈ Set.Icc a b ∧ ∀ y ∈ Set.Icc a b, f x ≤ f y then h.choose
  else a

/-- `_optimize_ar1_params(field_src, field_dst, weights)` on an `m × n`
grid: bounded scalar minimization of the weighted squared residual over
`bounds = (-0.98, 0.98)`. -/
def optimize_ar1_params (m n : ℕ) (fieldSrc : List (ℕ → ℕ → Option ℝ))
    (fieldDst weights : ℕ → ℕ → Option ℝ) : ℝ :=
  minimize_scalar_bounded (ar1_objf m n fieldSrc fieldDst weights) (-0.98) 0.98

/-- The feasible set of the AR(2) fit: the box bounds
`p0 ∈ [-1.98, 1.98]`, `p1 ∈ [-0.98, 0.98]` and the two linear
`keep_feasible` constraints `p0 + p1 ≤ 0.98`, `p1 - p0 ≤ 0.98`. -/
def FeasAR2 (p : ℝ × ℝ) : Prop :=
  -1.98 ≤ p.1 ∧ p.1 ≤ 1.98 ∧ -0.98 ≤ p.2 ∧ p.2 ≤ 0.98 ∧
  p.1 + p.2 ≤ 0.98 ∧ p.2 - p.1 ≤ 0.98

/-- Modelled from the spec: `scipy.optimize.minimize(objf, (0.8, 0.0),
method="trust-constr", bounds=bounds, constraints=[LinearConstraint(...,
keep_feasible=True)])`, an external collaborator.  Its contract: every
iterate, including the returned one, satisfies the bounds and the
keep-feasible linear constraints; on non-convergence a best-effort feasible
iterate (ultimately the feasible initial guess `(0.8, 0.0)`) is returned. -/
def minimize_trust_constr_ar2 (f : ℝ × ℝ → ℝ) : ℝ × ℝ :=
  if h : ∃ p, FeasAR2 p ∧ ∀ q, FeasAR2 q → f p ≤ f q then h.choose
  else (0.8, 0)

/-- `_optimize_ar2_params(field_src, field_dst, weights)` on an `m × n`
grid: constrained minimization of the weighted squared residual, staying in
the AR(2) stationarity region. -/
def optimize_ar2_params (m n : ℕ) (fieldSrc : List (ℕ → ℕ → Option ℝ))
    (fieldDst weights : ℕ → ℕ → Option ℝ) : ℝ × ℝ :=
  minimize_trust_constr_ar2 (ar2_objf m n fieldSrc fieldDst weights)

/-- `np.arctan2(y, x)`: the quadrant-aware arctangent. -/
def arctan2 (y x : ℝ) : ℝ :=
  if 0 < x then Real.arctan (y / x)
  else if x < 0 then
    (if 0 ≤ y then Real.arctan (y / x) + Real.pi
     else Real.arctan (y / x) - Real.pi)
  else
    (if 0 < y then Real.pi / 2 else if y < 0 then -(Real.pi / 2) else 0)

/-- `_get_anisotropic_kernel_params(p)`: recover
`(theta, sigma1, sigma2, shape)` from the optimization parameterization
`theta = arctan2(p1, p0)`, `sigma1 = sqrt(p0² + p1²)`,
`sigma2 = sigma1 * p2`. -/
def get_anisotropic_kernel_params (p : ℝ × ℝ × ℝ × ℝ) : ℝ × ℝ × ℝ × ℝ :=
  (arctan2 p.2.1 p.1, Real.sqrt (p.1 * p.1 + p.2.1 * p.2.1),
   Real.sqrt (p.1 * p.1 + p.2.1 * p.2.1) * p.2.2.1, p.2.2.2)

/-- A Python-level `params` value handed to a kernel builder: either the
scalar `p_opt.x` of the bounded scalar optimizer, or a 4-tuple of
anisotropic parameters. -/
inductive PyParams where
  | scalar (x : ℝ)
  | tuple4 (phi sigma1 sigma2 expo : ℝ)

/-- `_compute_kernel_anisotropic(params, ...)` called at the Python level:
`params[:3]` and `params[3]` require an indexable 4-element parameter
vector, so a scalar argument raises a `TypeError`, modelled as `none`. -/
def compute_kernel_anisotropic_py (p : PyParams) (cutoff : ℝ) :
    Option (List (List ℝ)) :=
  match p with
  | PyParams.tuple4 phi s1 s2 e => some (compute_kernel_anisotropic phi s1 s2 e cutoff)
  | PyParams.scalar _ => none

/-- The kernel family selected by the `kernel_type` argument. -/
inductive KernelType where
  | anisotropic
  | isotropic

/-- The solver selected by the `method` argument of
`_optimize_convol_params`. -/
inductive FitMethod where
  | lbfgsb
  | trf

/-- Read a row-major grid of reals as a convolution kernel. -/
def kernelOfGrid (g : List (List ℝ)) : Kernel :=
  ⟨g.length, (g.getD 0 []).length, fun i j => (g.getD i []).getD j 0⟩

/-- The weighted squared-residual objective of `_optimize_convol_params`
for a candidate kernel grid: the sum over the positions where both the
validity mask holds and the weight exceeds `1e-3` of
`weights * (field_dst - masked_convolution(field_src, kernel)) ** 2`.
(The residual-vector mode of the `trf` solver is modelled by the sum of its
squares, which is the quantity `least_squares` minimizes.) -/
def convol_objf (fieldSrc fieldDst : PField) (weights : ℕ → ℕ → ℝ)
    (mask : ℕ → ℕ → Bool) (kernelGrid : List (List ℝ)) : ℝ :=
  ∑ i ∈ Finset.range fieldSrc.m, ∑ j ∈ Finset.range fieldSrc.n,
    if mask i j = true ∧ 1e-3 < weights i j then
      weights i j *
        ((fieldDst.ent i j).getD 0 -
          ((masked_convolution fieldSrc (kernelOfGrid kernelGrid)).ent i j).getD 0) ^ 2
    else 0

/-- The search box of the anisotropic kernel fit:
`p0, p1 ∈ [-10, 10]`, `aspect ∈ [0.25, 4]`, `shape ∈ [0.1, 5]`. -/
def anisoBox (p : ℝ × ℝ × ℝ × ℝ) : Prop :=
  -10 ≤ p.1 ∧ p.1 ≤ 10 ∧ -10 ≤ p.2.1 ∧ p.2.1 ≤ 10 ∧
  0.25 ≤ p.2.2.1 ∧ p.2.2.1 ≤ 4 ∧ 0.1 ≤ p.2.2.2 ∧ p.2.2.2 ≤ 5

/-- Modelled from the spec: the bounded 4-parameter solvers of the
anisotropic kernel fit (`least_squares(..., method="trf", bounds=...)` and
`minimize(..., method="L-BFGS-B", bounds=...)`), external collaborators.
Contract: the returned point lies in the search box; a minimizer is
returned when one exists, the initial guess `(1, 1, 1, 1)` otherwise. -/
def minimize_box4 (f : ℝ × ℝ × ℝ × ℝ → ℝ) : ℝ × ℝ × ℝ × ℝ :=
  if h : ∃ p, anisoBox p ∧ ∀ q, anisoBox q → f p ≤ f q then h.choose
  else (1, 1, 1, 1)

/-- `_optimize_convol_params(field_src, field_dst, weights, mask,
kernel_type, ..., method, ...)`: fit the kernel parameters by the selected
solver, then build the final kernel.  The final `return` applies
`_compute_kernel_anisotropic` to `p_opt` for BOTH kernel families; in the
isotropic branch `p_opt` is the scalar sigma, so the call fails with a
`TypeError` (`none`). -/
def optimize_convol_params (fieldSrc fieldDst : PField)
    (weights : ℕ → ℕ → ℝ) (mask : ℕ → ℕ → Bool) (kernelType : KernelType)
    (cutoff : ℝ) (method : FitMethod) : Option (List (List ℝ)) :=
  match kernelType with
  | KernelType.anisotropic =>
      let objf := fun p : ℝ × ℝ × ℝ × ℝ =>
        let q := get_anisotropic_kernel_params p
        convol_objf fieldSrc fieldDst weights mask
          (compute_kernel_anisotropic q.1 q.2.1 q.2.2.1 q.2.2.2 cutoff)
      let popt :=
        match method with
        | FitMethod.lbfgsb => minimize_box4 objf
        | FitMethod.trf => minimize_box4 objf
      let q := get_anisotropic_kernel_params popt
      compute_kernel_anisotropic_py (PyParams.tuple4 q.1 q.2.1 q.2.2.1 q.2.2.2) cutoff
  | KernelType.isotropic =>
      let objf := fun p : ℝ =>
        convol_objf fieldSrc fieldDst weights mask
          (compute_kernel_isotropic p cutoff)
      let popt := minimize_scalar_bounded objf 0.01 10
      compute_kernel_anisotropic_py (PyParams.scalar popt) cutoff

/-- `_compute_window_weights(coords, grid_height, grid_width,
window_radii)`: feature coordinates and radii normalized by the grid
dimensions, cell centers at `(index + 0.5) / dim`, separable Gaussian
weights per feature; with a single feature the weight array is all ones. -/
def compute_window_weights (coords : List (ℝ × ℝ)) (gridHeight gridWidth : ℕ)
    (windowRadii : List ℝ) : ℕ → ℕ → ℕ → ℝ :=
  fun i y x =>
    if 1 < coords.length then
      let c := coords.getD i (0, 0)
      let r := windowRadii.getD i 0
      let r1 := r / (gridHeight : ℝ)
      let r2 := r / (gridWidth : ℝ)
      let dy := c.1 / (gridHeight : ℝ) - ((y : ℝ) + 0.5) / (gridHeight : ℝ)
      let dx := c.2 / (gridWidth : ℝ) - ((x : ℝ) + 0.5) / (gridWidth : ℝ)
      Real.exp (-(dy * dy) / (2 * r1 ^ 2) - dx * dx / (2 * r2 ^ 2))
    else 1

/-- The `input_field_new` accumulation of `_iterate_ar_model`:
`sum over i of psi[i] * input_fields[-(i + 1)]`, starting from `0.0`. -/
def ar_predict (m n : ℕ) (inputFields : List PField) (psi : List ℝ) :
    PField :=
  ⟨m, n, fun i j =>
    (List.range psi.length).foldl
      (fun acc t =>
        oAdd acc (oSMul (psi.getD t 0)
          ((inputFields.getD (inputFields.length - 1 - t) (nanField m n)).ent i j)))
      (some 0)⟩

/-- `_iterate_ar_model(input_fields, psi)`: drop the oldest field and append
the new AR combination. -/
def iterate_ar_model (m n : ℕ) (inputFields : List PField) (psi : List ℝ) :
    List PField :=
  inputFields.drop 1 ++ [ar_predict m n inputFields psi]

/-- Elementwise sum of two fields (IEEE-modelled). -/
def pfAdd (a b : PField) : PField :=
  ⟨a.m, a.n, fun i j => oAdd (a.ent i j) (b.ent i j)⟩

/-- Modelled from the spec: one timestep of the forecast recursion (§4.7 of
the specification; the body of `forecast` in the source is truncated — it
references undefined feature variables and has no return statement).  For
each feature the fitted AR coefficients are applied to the rolling history,
the per-feature candidates are blended by the window weights
(`np.sum(window_weights * localized_nowcasts, axis=0)`), an optional
perturbation for (member, timestep) is added, and the combined field is
pushed into the history, dropping the oldest entry. -/
def linda_step (m n : ℕ) (featureCoords : List (ℝ × ℝ))
    (windowRadii : List ℝ) (psis : List (List ℝ)) (addPerturbations : Bool)
    (perturb : ℕ → ℕ → PField) (e t : ℕ) (hist : List PField) :
    List PField :=
  let weights := compute_window_weights featureCoords m n windowRadii
  let combined : PField :=
    ⟨m, n, fun y x =>
      (List.range featureCoords.length).foldl
        (fun acc i =>
          oAdd acc (oSMul (weights i y x)
            ((ar_predict m n hist (psis.getD i [])).ent y x)))
        (some 0)⟩
  let combined' := if addPerturbations then pfAdd combined (perturb e t) else combined
  hist.drop 1 ++ [combined']

/-- Iterate a timestep-indexed transition `t` times from an initial
history. -/
def iterSteps (init : List PField) (stepf : ℕ → List PField → List PField) :
    ℕ → List PField
  | 0 => init
  | t + 1 => stepf t (iterSteps init stepf t)

/-- Modelled from the spec: the `forecast` entry point (§4.7 and §6 of the
specification; the body of `forecast` in the source is truncated, so the
orchestration is modelled from the spec).  The initial state per ensemble
member is the advection-aligned input history of length `ariOrder + 1`
(the advection field is consumed only by the external extrapolation
engine); each member then runs `numTimesteps` transitions, and the forecast
for member `e` at lead `t` is the newest field of the history after `t + 1`
transitions — the series starts one timestep after the latest input. -/
def forecast (m n : ℕ) (precipFields : List PField)
    (advectionField : ℕ → ℕ → ℝ × ℝ) (numTimesteps ariOrder : ℕ)
    (addPerturbations : Bool) (numEnsMembers : ℕ)
    (featureCoords : List (ℝ × ℝ)) (windowRadii : List ℝ)
    (psis : List (List ℝ)) (perturb : ℕ → ℕ → PField) :
    List (List PField) :=
  let init := precipFields.drop (precipFields.length - (ariOrder + 1))
  (List.range numEnsMembers).map (fun e =>
    (List.range numTimesteps).map (fun t =>
      (iterSteps init
        (linda_step m n featureCoords windowRadii psis addPerturbations perturb e)
        (t + 1)).getLastD (nanField m n)))

end

-- ===== theorems =====

section Theorems

theorem list_sum_map_div {α : Type} (l : List α) (f : α → ℝ) (c : ℝ) :
    (l.map (fun x => f x / c)).sum = (l.map f).sum / c := by
  induction l with
  | nil => simp
  | cons a t ih => simp [ih, add_div]

theorem arangeZ_length (a b : ℤ) : (arangeZ a b).length = (b + 1 - a).toNat := by
  simp only [arangeZ, List.length_map, List.length_range]

theorem arangeZ_ne_nil (a b : ℤ) (h : a ≤ b) : arangeZ a b ≠ [] := by
  have hl : (arangeZ a b).length = (b + 1 - a).toNat := arangeZ_length a b
  intro hnil
  rw [hnil] at hl
  simp at hl
  omega

theorem oddArange_ne_nil (a b : ℤ) (h : a ≤ b) : oddArange a b ≠ [] := by
  unfold oddArange
  split
  · exact arangeZ_ne_nil (a - 1) b (by omega)
  · exact arangeZ_ne_nil a b h

theorem oddArange_length_odd (a b : ℤ) (h : a ≤ b) :
    Odd (oddArange a b).length := by
  unfold oddArange
  rcases Nat.even_or_odd (arangeZ a b).length with he | ho
  · rw [if_pos (Nat.even_iff.mp he)]
    have h1 : (arangeZ a b).length = (b + 1 - a).toNat := arangeZ_length a b
    have h2 : (arangeZ (a - 1) b).length = (b + 1 - (a - 1)).toNat :=
      arangeZ_length (a - 1) b
    have he' := Nat.even_iff.mp he
    rw [Nat.odd_iff]
    omega
  · rw [if_neg (by have := Nat.odd_iff.mp ho; omega)]
    exact ho

theorem truncZ_nonneg (x : ℝ) (hx : 0 ≤ x) : 0 ≤ truncZ x := by
  simp only [truncZ, if_pos hx]
  exact Int.floor_nonneg.mpr hx

theorem truncZ_neg_nonpos (x : ℝ) (hx : 0 ≤ x) : truncZ (-x) ≤ 0 := by
  unfold truncZ
  split
  · next h =>
    have hx0 : x = 0 := le_antisymm (by linarith [neg_nonneg.mp h]) hx
    simp [hx0]
  · have := Int.floor_nonneg.mpr hx
    simp only [neg_neg]
    omega

theorem list_sum_pos_of_pos (l : List ℝ) (h : l ≠ []) (hp : ∀ x ∈ l, 0 < x) :
    0 < l.sum := List.sum_pos l hp h

theorem normalizeGrid_sum_one (xs ys : List ℤ) (v : ℤ → ℤ → ℝ)
    (hxs : xs ≠ []) (hys : ys ≠ []) (hv : ∀ x y, 0 < v x y) :
    kernelSum (normalizeGrid xs ys v) = 1 := by
  have htot : 0 < (ys.map (fun y => (xs.map (fun x => v x y)).sum)).sum := by
    apply list_sum_pos_of_pos
    · simpa using hys
    · intro s hs
      rcases List.mem_map.mp hs with ⟨y, _, rfl⟩
      apply list_sum_pos_of_pos
      · simpa using hxs
      · intro t ht
        rcases List.mem_map.mp ht with ⟨x, _, rfl⟩
        exact hv x y
  set T := (ys.map (fun y => (xs.map (fun x => v x y)).sum)).sum with hT
  unfold kernelSum normalizeGrid
  rw [← hT, List.map_map]
  have hrow : ∀ y : ℤ,
      (List.sum ∘ fun y => xs.map (fun x => v x y / T)) y =
      (xs.map (fun x => v x y)).sum / T := by
    intro y
    simpa using list_sum_map_div xs (fun x => v x y) T
  calc (ys.map (List.sum ∘ fun y => xs.map (fun x => v x y / T))).sum
      = (ys.map (fun y => (xs.map (fun x => v x y)).sum / T)).sum := by
        apply congrArg
        exact List.map_congr_left (fun y _ => hrow y)
    _ = (ys.map (fun y => (xs.map (fun x => v x y)).sum)).sum / T := by
        simpa using list_sum_map_div ys (fun y => (xs.map (fun x => v x y)).sum) T
    _ = T / T := by rw [← hT]
    _ = 1 := div_self (ne_of_gt htot)

theorem normalizeGrid_length (xs ys : List ℤ) (v : ℤ → ℤ → ℝ) :
    (normalizeGrid xs ys v).length = ys.length := by
  simp [normalizeGrid]

theorem normalizeGrid_row_length (xs ys : List ℤ) (v : ℤ → ℤ → ℝ) :
    ∀ row ∈ normalizeGrid xs ys v, row.length = xs.length := by
  intro row hr
  unfold normalizeGrid at hr
  rcases List.mem_map.mp hr with ⟨y, _, rfl⟩
  simp

theorem normalizeGrid_odd_spec (a1 b1 a2 b2 : ℤ) (h1 : a1 ≤ b1) (h2 : a2 ≤ b2)
    (v : ℤ → ℤ → ℝ) (hv : ∀ x y, 0 < v x y) :
    kernelSum (normalizeGrid (oddArange a1 b1) (oddArange a2 b2) v) = 1 ∧
    Odd (normalizeGrid (oddArange a1 b1) (oddArange a2 b2) v).length ∧
    ∀ row ∈ normalizeGrid (oddArange a1 b1) (oddArange a2 b2) v,
      Odd row.length := by
  refine ⟨?_, ?_, ?_⟩
  · exact normalizeGrid_sum_one _ _ v (oddArange_ne_nil a1 b1 h1)
      (oddArange_ne_nil a2 b2 h2) hv
  · rw [normalizeGrid_length]
    exact oddArange_length_odd a2 b2 h2
  · intro row hr
    rw [normalizeGrid_row_length _ _ _ row hr]
    exact oddArange_length_odd a1 b1 h1

theorem compute_ellipse_bbox_form (phi s1 s2 c : ℝ) :
    ∃ h w : ℝ, compute_ellipse_bbox phi s1 s2 c = (-|h|, -|w|, |h|, |w|) := by
  unfold compute_ellipse_bbox
  dsimp only
  split
  · exact ⟨bboxH (phi / 180 * Real.pi) (c * s1) (c * s2),
      bboxW (phi / 180 * Real.pi) (c * s1) (c * s2), rfl⟩
  · exact ⟨s1 * c, s2 * c, rfl⟩

theorem truncZ_neg_le_of_nonneg (x : ℝ) (hx : 0 ≤ x) :
    truncZ (-x) ≤ truncZ x :=
  le_trans (truncZ_neg_nonpos x hx) (truncZ_nonneg x hx)

theorem compute_kernel_anisotropic_spec (phi s1 s2 expo c : ℝ) :
    kernelSum (compute_kernel_anisotropic phi s1 s2 expo c) = 1 ∧
    Odd (compute_kernel_anisotropic phi s1 s2 expo c).length ∧
    ∀ row ∈ compute_kernel_anisotropic phi s1 s2 expo c, Odd row.length := by
  obtain ⟨h, w, hbb⟩ := compute_ellipse_bbox_form phi |s1| |s2| c
  unfold compute_kernel_anisotropic
  rw [hbb]
  exact normalizeGrid_odd_spec _ _ _ _
    (by simpa using truncZ_neg_le_of_nonneg |w| (abs_nonneg w))
    (by simpa using truncZ_neg_le_of_nonneg |h| (abs_nonneg h))
    _ (fun x y => Real.exp_pos _)

theorem compute_kernel_isotropic_spec (sigma c : ℝ) (hs : 0 < sigma)
    (hc : 0 < c) :
    kernelSum (compute_kernel_isotropic sigma c) = 1 ∧
    Odd (compute_kernel_isotropic sigma c).length ∧
    ∀ row ∈ compute_kernel_isotropic sigma c, Odd row.length := by
  unfold compute_kernel_isotropic
  have hb : (0:ℝ) ≤ sigma * c := le_of_lt (mul_pos hs hc)
  exact normalizeGrid_odd_spec _ _ _ _
    (truncZ_neg_le_of_nonneg _ hb) (truncZ_neg_le_of_nonneg _ hb)
    _ (fun x y => Real.exp_pos _)

/-- C2: For every parameter vector accepted by the anisotropic kernel builder
(phi, sigma1, sigma2, shape exponent) and every sigma accepted by the
isotropic kernel builder, the returned 2D kernel has entries summing to 1
(exactly, in the real-number model) and both of its grid dimensions are
odd. -/
theorem C2_kernel_normalization :
    (∀ phi sigma1 sigma2 expo cutoff : ℝ,
        kernelSum (compute_kernel_anisotropic phi sigma1 sigma2 expo cutoff) = 1 ∧
        Odd (compute_kernel_anisotropic phi sigma1 sigma2 expo cutoff).length ∧
        ∀ row ∈ compute_kernel_anisotropic phi sigma1 sigma2 expo cutoff,
          Odd row.length) ∧
    (∀ sigma cutoff : ℝ, 0 < sigma → 0 < cutoff →
        kernelSum (compute_kernel_isotropic sigma cutoff) = 1 ∧
        Odd (compute_kernel_isotropic sigma cutoff).length ∧
        ∀ row ∈ compute_kernel_isotropic sigma cutoff, Odd row.length) :=
  ⟨fun phi s1 s2 expo c => compute_kernel_anisotropic_spec phi s1 s2 expo c,
   fun sigma c hs hc => compute_kernel_isotropic_spec sigma c hs hc⟩

/-- Witness for C2 at the concrete inputs `sigma = 1`, `cutoff = 6`. -/
theorem C2_kernel_normalization_witness :
    kernelSum (compute_kernel_isotropic 1 6) = 1 ∧
    Odd (compute_kernel_isotropic 1 6).length :=
  ⟨(C2_kernel_normalization.2 1 6 (by norm_num) (by norm_num)).1,
   (C2_kernel_normalization.2 1 6 (by norm_num) (by norm_num)).2.1⟩

theorem abs_atan_comb (A B : ℝ) (hA : A ≠ 0) :
    |A * Real.cos (Real.arctan (B / A)) + B * Real.sin (Real.arctan (B / A))| =
    Real.sqrt (A ^ 2 + B ^ 2) := by
  have ht := Real.cos_arctan (B / A)
  have hs := Real.sin_arctan (B / A)
  set q := Real.sqrt (1 + (B / A) ^ 2) with hqdef
  have hq : 0 < q := Real.sqrt_pos.mpr (by positivity)
  have hsq : |A| * q = Real.sqrt (A ^ 2 + B ^ 2) := by
    have h1 : (|A| * q) ^ 2 = A ^ 2 + B ^ 2 := by
      rw [mul_pow, hqdef, Real.sq_sqrt (by positivity), sq_abs]
      field_simp
    calc |A| * q = Real.sqrt ((|A| * q) ^ 2) := (Real.sqrt_sq (by positivity)).symm
      _ = Real.sqrt (A ^ 2 + B ^ 2) := by rw [h1]
  have hexpr : A * Real.cos (Real.arctan (B / A)) + B * Real.sin (Real.arctan (B / A))
      = (A ^ 2 + B ^ 2) / (A * q) := by
    rw [ht, hs]
    field_simp
    ring
  rw [hexpr, abs_div, abs_of_nonneg (show (0:ℝ) ≤ A ^ 2 + B ^ 2 by positivity),
    abs_mul, abs_of_pos hq, hsq]
  exact Real.div_sqrt

theorem abs_bboxW (phr r1 r2 : ℝ) (h1 : r1 ≠ 0) (h2 : r2 ≠ 0) :
    |bboxW phr r1 r2| =
    Real.sqrt ((r1 * Real.cos phr) ^ 2 + (r2 * Real.sin phr) ^ 2) := by
  unfold bboxW pyAtanDiv
  dsimp only
  by_cases hden : r1 * Real.cos phr = 0
  · have hcp : Real.cos phr = 0 := by
      rcases mul_eq_zero.mp hden with h | h
      · exact absurd h h1
      · exact h
    have hsp_ne : Real.sin phr ≠ 0 := by
      intro h0
      have hpy := Real.sin_sq_add_cos_sq phr
      rw [h0, hcp] at hpy
      norm_num at hpy
    have hnum_ne : -(r2 * Real.sin phr) ≠ 0 := by
      simp only [neg_ne_zero]
      exact mul_ne_zero h2 hsp_ne
    rw [if_pos hden, hcp]
    rcases hnum_ne.lt_or_lt with hlt | hgt
    · rw [if_neg hlt.asymm, if_pos hlt]
      have he : r1 * Real.cos (-(Real.pi / 2)) * 0 -
          r2 * Real.sin (-(Real.pi / 2)) * Real.sin phr = r2 * Real.sin phr := by
        simp [Real.cos_pi_div_two, Real.sin_pi_div_two]
      rw [he, show (r1 * 0) ^ 2 + (r2 * Real.sin phr) ^ 2 =
        (r2 * Real.sin phr) ^ 2 by ring, Real.sqrt_sq_eq_abs]
    · rw [if_pos hgt]
      have he : r1 * Real.cos (Real.pi / 2) * 0 -
          r2 * Real.sin (Real.pi / 2) * Real.sin phr = -(r2 * Real.sin phr) := by
        simp [Real.cos_pi_div_two, Real.sin_pi_div_two]
      rw [he, abs_neg, show (r1 * 0) ^ 2 + (r2 * Real.sin phr) ^ 2 =
        (r2 * Real.sin phr) ^ 2 by ring, Real.sqrt_sq_eq_abs]
  · rw [if_neg hden]
    have hcomb := abs_atan_comb (r1 * Real.cos phr) (-(r2 * Real.sin phr)) hden
    have he : r1 * Real.cos (Real.arctan (-(r2 * Real.sin phr) / (r1 * Real.cos phr))) * Real.cos phr -
        r2 * Real.sin (Real.arctan (-(r2 * Real.sin phr) / (r1 * Real.cos phr))) * Real.sin phr =
        (r1 * Real.cos phr) * Real.cos (Real.arctan (-(r2 * Real.sin phr) / (r1 * Real.cos phr))) +
        (-(r2 * Real.sin phr)) * Real.sin (Real.arctan (-(r2 * Real.sin phr) / (r1 * Real.cos phr))) := by
      ring
    rw [he, hcomb, show (-(r2 * Real.sin phr)) ^ 2 = (r2 * Real.sin phr) ^ 2 by ring]

theorem abs_bboxH (phr r1 r2 : ℝ) (h1 : r1 ≠ 0) (h2 : r2 ≠ 0) :
    |bboxH phr r1 r2| =
    Real.sqrt ((r1 * Real.sin phr) ^ 2 + (r2 * Real.cos phr) ^ 2) := by
  unfold bboxH pyAtanDiv
  dsimp only
  by_cases hden : r1 * Real.sin phr = 0
  · have hsp : Real.sin phr = 0 := by
      rcases mul_eq_zero.mp hden with h | h
      · exact absurd h h1
      · exact h
    have hcp_ne : Real.cos phr ≠ 0 := by
      intro h0
      have hpy := Real.sin_sq_add_cos_sq phr
      rw [h0, hsp] at hpy
      norm_num at hpy
    have hnum_ne : r2 * Real.cos phr ≠ 0 := mul_ne_zero h2 hcp_ne
    rw [if_pos hden, hsp]
    rcases hnum_ne.lt_or_lt with hlt | hgt
    · rw [if_neg hlt.asymm, if_pos hlt]
      have he : r1 * Real.cos (-(Real.pi / 2)) * 0 +
          r2 * Real.sin (-(Real.pi / 2)) * Real.cos phr = -(r2 * Real.cos phr) := by
        simp [Real.cos_pi_div_two, Real.sin_pi_div_two]
      rw [he, abs_neg, show (r1 * 0) ^ 2 + (r2 * Real.cos phr) ^ 2 =
        (r2 * Real.cos phr) ^ 2 by ring, Real.sqrt_sq_eq_abs]
    · rw [if_pos hgt]
      have he : r1 * Real.cos (Real.pi / 2) * 0 +
          r2 * Real.sin (Real.pi / 2) * Real.cos phr = r2 * Real.cos phr := by
        simp [Real.cos_pi_div_two, Real.sin_pi_div_two]
      rw [he, show (r1 * 0) ^ 2 + (r2 * Real.cos phr) ^ 2 =
        (r2 * Real.cos phr) ^ 2 by ring, Real.sqrt_sq_eq_abs]
  · rw [if_neg hden]
    have hcomb := abs_atan_comb (r1 * Real.sin phr) (r2 * Real.cos phr) hden
    have he : r1 * Real.cos (Real.arctan (r2 * Real.cos phr / (r1 * Real.sin phr))) * Real.sin phr +
        r2 * Real.sin (Real.arctan (r2 * Real.cos phr / (r1 * Real.sin phr))) * Real.cos phr =
        (r1 * Real.sin phr) * Real.cos (Real.arctan (r2 * Real.cos phr / (r1 * Real.sin phr))) +
        (r2 * Real.cos phr) * Real.sin (Real.arctan (r2 * Real.cos phr / (r1 * Real.sin phr))) := by
      ring
    rw [he, hcomb]

/-- C9 counterexample: at `phi = 0`, `sigma1 = 1`, `sigma2 = 2`,
`cutoff = 6`, swapping the sigmas and rotating by 90 degrees does NOT give
the axis-swapped box: both calls yield the box `(-12, -6, 12, 6)`, whose
axis swap `(-6, -12, 6, 12)` is a different box. -/
theorem C9_counterexample :
    compute_ellipse_bbox (0 + 90) 2 1 6 ≠
      bboxAxisSwap (compute_ellipse_bbox 0 1 2 6) := by
  have hpi := Real.pi_gt_three
  have h1 : compute_ellipse_bbox 0 1 2 6 = (-12, -6, 12, 6) := by
    unfold compute_ellipse_bbox
    dsimp only
    have hz : (0:ℝ) / 180 * Real.pi = 0 := by norm_num
    rw [hz]
    rw [if_pos ?hcond]
    case hcond =>
      constructor
      · rw [zero_sub, abs_neg, abs_of_pos (by linarith)]
        linarith
      · rw [zero_sub, abs_neg, abs_of_pos (by linarith)]
        linarith
    have hw : bboxW 0 (6 * 1) (6 * 2) = 6 := by
      unfold bboxW pyAtanDiv
      dsimp only
      rw [if_neg (by norm_num [Real.cos_zero])]
      norm_num [Real.sin_zero, Real.cos_zero, Real.arctan_zero]
    have hh : bboxH 0 (6 * 1) (6 * 2) = 12 := by
      unfold bboxH pyAtanDiv
      dsimp only
      rw [if_pos (by norm_num [Real.sin_zero])]
      rw [if_pos (by norm_num [Real.cos_zero])]
      norm_num [Real.sin_zero, Real.cos_zero, Real.cos_pi_div_two, Real.sin_pi_div_two]
    rw [hw, hh]
    norm_num
  have h2 : compute_ellipse_bbox (0 + 90) 2 1 6 = (-12, -6, 12, 6) := by
    unfold compute_ellipse_bbox
    dsimp only
    have hz : ((0:ℝ) + 90) / 180 * Real.pi = Real.pi / 2 := by ring
    rw [hz]
    rw [if_neg (by norm_num)]
    norm_num
  rw [h1, h2]
  unfold bboxAxisSwap
  dsimp only
  intro hcontra
  have := congrArg (fun p : ℝ × ℝ × ℝ × ℝ => p.1) hcontra
  norm_num at this

/-- C9 amended: for positive scales and angles where both the original and
the swapped-rotated call take the general (non-degenerate) branch, swapping
`sigma1 ↔ sigma2` and rotating `phi` by 90 degrees yields EXACTLY the same
bounding box (no axis swap). -/
theorem C9_bbox_swap_rotate (phi s1 s2 cutoff : ℝ) (hs1 : 0 < s1)
    (hs2 : 0 < s2) (hc : 0 < cutoff) (hg : bboxGeneralBranch phi)
    (hg' : bboxGeneralBranch (phi + 90)) :
    compute_ellipse_bbox (phi + 90) s2 s1 cutoff =
    compute_ellipse_bbox phi s1 s2 cutoff := by
  have hr1 : cutoff * s1 ≠ 0 := ne_of_gt (mul_pos hc hs1)
  have hr2 : cutoff * s2 ≠ 0 := ne_of_gt (mul_pos hc hs2)
  unfold compute_ellipse_bbox
  dsimp only
  unfold bboxGeneralBranch at hg hg'
  rw [if_pos hg', if_pos hg]
  have hphr : (phi + 90) / 180 * Real.pi = phi / 180 * Real.pi + Real.pi / 2 := by
    ring
  have hcos : Real.cos ((phi + 90) / 180 * Real.pi) =
      -Real.sin (phi / 180 * Real.pi) := by
    rw [hphr, Real.cos_add_pi_div_two]
  have hsin : Real.sin ((phi + 90) / 180 * Real.pi) =
      Real.cos (phi / 180 * Real.pi) := by
    rw [hphr, Real.sin_add_pi_div_two]
  have hw : |bboxW ((phi + 90) / 180 * Real.pi) (cutoff * s2) (cutoff * s1)| =
      |bboxW (phi / 180 * Real.pi) (cutoff * s1) (cutoff * s2)| := by
    rw [abs_bboxW _ _ _ hr2 hr1, abs_bboxW _ _ _ hr1 hr2, hcos, hsin]
    ring_nf
  have hh : |bboxH ((phi + 90) / 180 * Real.pi) (cutoff * s2) (cutoff * s1)| =
      |bboxH (phi / 180 * Real.pi) (cutoff * s1) (cutoff * s2)| := by
    rw [abs_bboxH _ _ _ hr2 hr1, abs_bboxH _ _ _ hr1 hr2, hcos, hsin]
    ring_nf
  rw [hw, hh]

/-- Witness for the amended C9 at `phi = 45`, `sigma1 = 1`, `sigma2 = 2`,
`cutoff = 6`. -/
theorem C9_bbox_swap_rotate_witness :
    compute_ellipse_bbox (45 + 90) 2 1 6 = compute_ellipse_bbox 45 1 2 6 := by
  have hpi := Real.pi_gt_three
  apply C9_bbox_swap_rotate 45 1 2 6 (by norm_num) (by norm_num) (by norm_num)
  · constructor
    · rw [show (45:ℝ) / 180 * Real.pi - Real.pi / 2 = -(Real.pi / 4) by ring,
        abs_neg, abs_of_pos (by linarith)]
      linarith
    · rw [show (45:ℝ) / 180 * Real.pi - 3 * Real.pi / 2 = -(5 * Real.pi / 4) by ring,
        abs_neg, abs_of_pos (by linarith)]
      linarith
  · constructor
    · rw [show ((45:ℝ) + 90) / 180 * Real.pi - Real.pi / 2 = Real.pi / 4 by ring,
        abs_of_pos (by linarith)]
      linarith
    · rw [show ((45:ℝ) + 90) / 180 * Real.pi - 3 * Real.pi / 2 = -(3 * Real.pi / 4) by ring,
        abs_neg, abs_of_pos (by linarith)]
      linarith

/-- C3: The masked convolution returns a field of the same shape in which
every originally non-finite position is non-finite in the output, and every
originally finite position equals the zero-filled convolution of the field
divided by the convolution of the 0/1 finiteness mask at that position. -/
theorem C3_masked_convolution_semantics (f : PField) (k : Kernel) :
    (masked_convolution f k).m = f.m ∧ (masked_convolution f k).n = f.n ∧
    ∀ i j, i < f.m → j < f.n →
      (f.ent i j = none → (masked_convolution f k).ent i j = none) ∧
      ((f.ent i j).isSome →
        (masked_convolution f k).ent i j =
          some (conv2same f.m f.n (zeroFilled f) k i j /
                conv2same f.m f.n (maskFloat f) k i j)) := by
  refine ⟨rfl, rfl, fun i j hi hj => ⟨fun hz => ?_, fun hs => ?_⟩⟩
  · simp [masked_convolution, hz]
  · simp [masked_convolution, hi, hj, hs]

/-- Witness for C3 on a concrete 1 × 1 all-finite field. -/
theorem C3_masked_convolution_semantics_witness :
    (masked_convolution (onesField 1 1) idKernel).ent 0 0 =
      some (conv2same 1 1 (zeroFilled (onesField 1 1)) idKernel 0 0 /
            conv2same 1 1 (maskFloat (onesField 1 1)) idKernel 0 0) :=
  ((C3_masked_convolution_semantics (onesField 1 1) idKernel).2.2 0 0
    (by norm_num [onesField]) (by norm_num [onesField])).2 (by simp [onesField])

/-- C4 counterexample: on the all-finite 1 × 1 field `[[1]]` and the uniform
3 × 3 kernel, the masked convolution yields `1` at position `(0,0)` while
the plain zero-padded convolution yields `1/9`: the renormalization by the
convolved all-ones mask does change boundary values. -/
theorem C4_counterexample :
    (masked_convolution (onesField 1 1) uniformKernel3).ent 0 0 ≠
    some (conv2same 1 1 (zeroFilled (onesField 1 1)) uniformKernel3 0 0) := by
  simp [masked_convolution, onesField, uniformKernel3, conv2same, zeroPad,
    zeroFilled, maskFloat, Finset.sum_range_succ]

/-- C4 amended: on a field with no missing values, the masked convolution
equals the plain zero-padded convolution divided by the convolution of the
all-ones mask; in particular it equals the plain convolution at every
position where the convolved all-ones mask is 1 (interior positions whose
kernel support lies inside the grid). -/
theorem C4_masked_convolution_all_finite (f : PField) (k : Kernel)
    (hfin : ∀ i j, i < f.m → j < f.n → (f.ent i j).isSome) :
    ∀ i j, i < f.m → j < f.n →
      (masked_convolution f k).ent i j =
        some (conv2same f.m f.n (zeroFilled f) k i j /
              conv2same f.m f.n (maskFloat f) k i j) ∧
      (conv2same f.m f.n (maskFloat f) k i j = 1 →
        (masked_convolution f k).ent i j =
          some (conv2same f.m f.n (zeroFilled f) k i j)) := by
  intro i j hi hj
  have hs := hfin i j hi hj
  constructor
  · simp [masked_convolution, hi, hj, hs]
  · intro h1
    simp [masked_convolution, hi, hj, hs, h1]

/-- Witness for the amended C4 on the 1 × 1 field `[[1]]` with the identity
kernel, whose convolved all-ones mask is 1 at `(0,0)`. -/
theorem C4_masked_convolution_all_finite_witness :
    (masked_convolution (onesField 1 1) idKernel).ent 0 0 =
      some (conv2same 1 1 (zeroFilled (onesField 1 1)) idKernel 0 0) :=
  (C4_masked_convolution_all_finite (onesField 1 1) idKernel
    (fun i j hi hj => by simp [onesField]) 0 0 (by norm_num [onesField])
    (by norm_num [onesField])).2
    (by
      rw [conv2same]
      simp only [idKernel, Finset.sum_range_one]
      rw [zeroPad]
      norm_num [maskFloat, onesField])

theorem prog_value_eq (f : PField) (k : Kernel) :
    divideConvAtMask f k
      (writeConvAtMask f (zeroNonFinite f) k (nanField f.m f.n)) =
    masked_convolution f k := by
  ext i j x
  · rfl
  · rfl
  · by_cases hcond : i < f.m ∧ j < f.n ∧ (f.ent i j).isSome
    · simp [divideConvAtMask, writeConvAtMask, masked_convolution, hcond,
        zeroNonFinite, zeroFilled, conv2same, zeroPad]
    · simp [divideConvAtMask, writeConvAtMask, masked_convolution, hcond,
        nanField]

/-- C10: the buffer-level masked convolution never writes to the caller's
field or kernel buffers (the copy is mutated instead), returns a freshly
allocated output buffer distinct from both, and that buffer holds exactly
the functional masked convolution of the input. -/
theorem C10_masked_convolution_frame (s0 : NpState) (fieldId kernelId : ℕ)
    (hf : fieldId < s0.next) (hk : kernelId < s0.next) :
    (masked_convolution_prog s0 fieldId kernelId).2.bufs fieldId =
      s0.bufs fieldId ∧
    (masked_convolution_prog s0 fieldId kernelId).2.bufs kernelId =
      s0.bufs kernelId ∧
    (masked_convolution_prog s0 fieldId kernelId).1 ≠ fieldId ∧
    (masked_convolution_prog s0 fieldId kernelId).1 ≠ kernelId ∧
    (masked_convolution_prog s0 fieldId kernelId).2.bufs
        (masked_convolution_prog s0 fieldId kernelId).1 =
      masked_convolution (s0.bufs fieldId)
        (kernelOfPField (s0.bufs kernelId)) := by
  have hf0 : fieldId ≠ s0.next := by omega
  have hf1 : fieldId ≠ s0.next + 1 := by omega
  have hf2 : fieldId ≠ s0.next + 2 := by omega
  have hk0 : kernelId ≠ s0.next := by omega
  have hk1 : kernelId ≠ s0.next + 1 := by omega
  have hk2 : kernelId ≠ s0.next + 2 := by omega
  refine ⟨?_, ?_, ?_, ?_, ?_⟩
  · simp [masked_convolution_prog, npAlloc, npWrite, hf0, hf1, hf2]
  · simp [masked_convolution_prog, npAlloc, npWrite, hk0, hk1, hk2]
  · simp [masked_convolution_prog, npAlloc, npWrite]
    omega
  · simp [masked_convolution_prog, npAlloc, npWrite]
    omega
  · simp only [masked_convolution_prog, npAlloc, npWrite]
    simp
    exact prog_value_eq (s0.bufs fieldId) (kernelOfPField (s0.bufs kernelId))

/-- Witness for C10 on a concrete two-buffer heap. -/
theorem C10_masked_convolution_frame_witness :
    (masked_convolution_prog exState 0 1).2.bufs 0 = exState.bufs 0 ∧
    (masked_convolution_prog exState 0 1).2.bufs 1 = exState.bufs 1 ∧
    (masked_convolution_prog exState 0 1).1 ≠ 0 ∧
    (masked_convolution_prog exState 0 1).1 ≠ 1 ∧
    (masked_convolution_prog exState 0 1).2.bufs
        (masked_convolution_prog exState 0 1).1 =
      masked_convolution (exState.bufs 0) (kernelOfPField (exState.bufs 1)) :=
  C10_masked_convolution_frame exState 0 1 (by norm_num [exState])
    (by norm_num [exState])

/-- C6: the AR(2) fitter returns coefficients inside the box bounds and the
stationarity triangle (with any non-negative slack `eps`). -/
theorem C6_ar2_stationarity (m n : ℕ) (fieldSrc : List (ℕ → ℕ → Option ℝ))
    (fieldDst weights : ℕ → ℕ → Option ℝ) (eps : ℝ)
    (hw : ∀ i j v, weights i j = some v → 0 ≤ v) (heps : 0 ≤ eps) :
    -1.98 ≤ (optimize_ar2_params m n fieldSrc fieldDst weights).1 ∧
    (optimize_ar2_params m n fieldSrc fieldDst weights).1 ≤ 1.98 ∧
    -0.98 ≤ (optimize_ar2_params m n fieldSrc fieldDst weights).2 ∧
    (optimize_ar2_params m n fieldSrc fieldDst weights).2 ≤ 0.98 ∧
    (optimize_ar2_params m n fieldSrc fieldDst weights).1 +
      (optimize_ar2_params m n fieldSrc fieldDst weights).2 ≤ 0.98 + eps ∧
    (optimize_ar2_params m n fieldSrc fieldDst weights).2 -
      (optimize_ar2_params m n fieldSrc fieldDst weights).1 ≤ 0.98 + eps := by
  have hfeas : FeasAR2 (optimize_ar2_params m n fieldSrc fieldDst weights) := by
    unfold optimize_ar2_params minimize_trust_constr_ar2
    split
    · next h => exact h.choose_spec.1
    · norm_num [FeasAR2]
  obtain ⟨h1, h2, h3, h4, h5, h6⟩ := hfeas
  exact ⟨h1, h2, h3, h4, by linarith, by linarith⟩

/-- Witness for C6 at concrete inputs (empty source stack, all-non-finite
target, unit weights, `eps = 0`). -/
theorem C6_ar2_stationarity_witness :
    -1.98 ≤ (optimize_ar2_params 1 1 [] noneEnt (fun _ _ => some 1)).1 ∧
    (optimize_ar2_params 1 1 [] noneEnt (fun _ _ => some 1)).1 ≤ 1.98 ∧
    -0.98 ≤ (optimize_ar2_params 1 1 [] noneEnt (fun _ _ => some 1)).2 ∧
    (optimize_ar2_params 1 1 [] noneEnt (fun _ _ => some 1)).2 ≤ 0.98 ∧
    (optimize_ar2_params 1 1 [] noneEnt (fun _ _ => some 1)).1 +
      (optimize_ar2_params 1 1 [] noneEnt (fun _ _ => some 1)).2 ≤ 0.98 + 0 ∧
    (optimize_ar2_params 1 1 [] noneEnt (fun _ _ => some 1)).2 -
      (optimize_ar2_params 1 1 [] noneEnt (fun _ _ => some 1)).1 ≤ 0.98 + 0 :=
  C6_ar2_stationarity 1 1 [] noneEnt (fun _ _ => some 1) 0
    (by
      intro i j v h
      injection h with hv
      rw [← hv]
      norm_num)
    (le_refl 0)

theorem minimize_scalar_bounded_mem (f : ℝ → ℝ) (a b : ℝ) (hab : a ≤ b) :
    minimize_scalar_bounded f a b ∈ Set.Icc a b := by
  unfold minimize_scalar_bounded
  split
  · next h => exact h.choose_spec.1
  · exact ⟨le_refl a, hab⟩

/-- C7: if the target field is exactly `0.5` times the source field and the
weights are 1 at every finite position (and the source has positive energy),
the AR(1) fitter returns exactly `0.5`; and for every input the returned
coefficient lies in `[-0.98, 0.98]`. -/
theorem C7_ar1_recovery :
    (∀ (m n : ℕ) (fieldSrc : List (ℕ → ℕ → Option ℝ))
        (fieldDst weights : ℕ → ℕ → Option ℝ),
      (∀ i j, fieldDst i j = oSMul 0.5 (fieldSrc.getD 0 noneEnt i j)) →
      (∀ i j, i < m → j < n → (fieldSrc.getD 0 noneEnt i j).isSome →
        weights i j = some 1) →
      0 < nansum2 m n (fun i j => oSq (fieldSrc.getD 0 noneEnt i j)) →
      optimize_ar1_params m n fieldSrc fieldDst weights = 0.5) ∧
    (∀ (m n : ℕ) (fieldSrc : List (ℕ → ℕ → Option ℝ))
        (fieldDst weights : ℕ → ℕ → Option ℝ),
      -0.98 ≤ optimize_ar1_params m n fieldSrc fieldDst weights ∧
      optimize_ar1_params m n fieldSrc fieldDst weights ≤ 0.98) := by
  constructor
  · intro m n fieldSrc fieldDst weights hdst hw hS
    set src0 := fieldSrc.getD 0 noneEnt with hsrc0
    set S := nansum2 m n (fun i j => oSq (src0 i j)) with hSdef
    have hobj : ∀ p, ar1_objf m n fieldSrc fieldDst weights p =
        (0.5 - p) ^ 2 * S := by
      intro p
      rw [hSdef]
      unfold ar1_objf nansum2
      rw [Finset.mul_sum]
      refine Finset.sum_congr rfl (fun i hi => ?_)
      rw [Finset.mul_sum]
      refine Finset.sum_congr rfl (fun j hj => ?_)
      have hi' := Finset.mem_range.mp hi
      have hj' := Finset.mem_range.mp hj
      dsimp only
      rw [← hsrc0, hdst i j]
      cases hsij : src0 i j with
      | none => simp [oSMul, oSub, oSq, oMul]
      | some s =>
        have hw1 : weights i j = some 1 := hw i j hi' hj' (by rw [hsij]; rfl)
        rw [hw1]
        simp only [oSMul, oSub, oSq, oMul, Option.getD_some]
        ring
    have hmin : ∃ x, x ∈ Set.Icc (-0.98 : ℝ) 0.98 ∧
        ∀ y ∈ Set.Icc (-0.98 : ℝ) 0.98,
          ar1_objf m n fieldSrc fieldDst weights x ≤
          ar1_objf m n fieldSrc fieldDst weights y := by
      refine ⟨0.5, by norm_num, fun y hy => ?_⟩
      rw [hobj, hobj, show ((0.5 : ℝ) - 0.5) ^ 2 = 0 by norm_num, zero_mul]
      exact mul_nonneg (sq_nonneg _) (le_of_lt hS)
    unfold optimize_ar1_params minimize_scalar_bounded
    rw [dif_pos hmin]
    obtain ⟨hmem, hopt⟩ := hmin.choose_spec
    have h1 := hopt 0.5 (by norm_num)
    rw [hobj, hobj, show ((0.5 : ℝ) - 0.5) ^ 2 = 0 by norm_num, zero_mul] at h1
    have h3 : 0 ≤ (0.5 - hmin.choose) ^ 2 * S :=
      mul_nonneg (sq_nonneg _) (le_of_lt hS)
    have h4 : (0.5 - hmin.choose) ^ 2 * S = 0 := le_antisymm h1 h3
    have h5 : (0.5 - hmin.choose) ^ 2 = 0 := by
      rcases mul_eq_zero.mp h4 with h | h
      · exact h
      · exact absurd h (ne_of_gt hS)
    have h6 : (0.5 : ℝ) - hmin.choose = 0 := by
      exact pow_eq_zero_iff (by norm_num) |>.mp h5
    linarith
  · intro m n fieldSrc fieldDst weights
    have := minimize_scalar_bounded_mem
      (ar1_objf m n fieldSrc fieldDst weights) (-0.98) 0.98 (by norm_num)
    exact ⟨this.1, this.2⟩

/-- Witness for C7 on a concrete 1 × 1 grid with `src = [[1]]`,
`dst = [[0.5]]`, unit weights. -/
theorem C7_ar1_recovery_witness :
    optimize_ar1_params 1 1 [fun _ _ => (some 1 : Option ℝ)]
      (fun _ _ => some (1 / 2)) (fun _ _ => some 1) = 0.5 :=
  C7_ar1_recovery.1 1 1 [fun _ _ => some 1] (fun _ _ => some (1 / 2))
    (fun _ _ => some 1)
    (by
      intro i j
      simp [oSMul, noneEnt]
      try norm_num)
    (fun i j hi hj hs => rfl)
    (by
      simp [nansum2, oSq, noneEnt]
      try norm_num)

theorem cww_multi (coords : List (ℝ × ℝ)) (H W : ℕ) (radii : List ℝ)
    (h : 1 < coords.length) (i y x : ℕ) :
    compute_window_weights coords H W radii i y x =
      Real.exp
        (-(((coords.getD i (0, 0)).1 / (H : ℝ) - ((y : ℝ) + 0.5) / (H : ℝ)) *
            ((coords.getD i (0, 0)).1 / (H : ℝ) - ((y : ℝ) + 0.5) / (H : ℝ))) /
          (2 * (radii.getD i 0 / (H : ℝ)) ^ 2) -
         ((coords.getD i (0, 0)).2 / (W : ℝ) - ((x : ℝ) + 0.5) / (W : ℝ)) *
            ((coords.getD i (0, 0)).2 / (W : ℝ) - ((x : ℝ) + 0.5) / (W : ℝ)) /
          (2 * (radii.getD i 0 / (W : ℝ)) ^ 2)) := by
  simp only [compute_window_weights, if_pos h]

/-- C8: with exactly one feature the window-weight builder returns the
all-ones weight; with more than one feature every weight lies in `[0, 1]`
and decays monotonically with the per-axis distance from the feature's
(normalized) coordinate. -/
theorem C8_window_weights (coords : List (ℝ × ℝ)) (H W : ℕ)
    (radii : List ℝ) :
    (coords.length = 1 →
      ∀ i y x, compute_window_weights coords H W radii i y x = 1) ∧
    (1 < coords.length →
      ∀ i y x, 0 ≤ compute_window_weights coords H W radii i y x ∧
        compute_window_weights coords H W radii i y x ≤ 1) ∧
    (1 < coords.length →
      ∀ i y x1 x2 : ℕ,
        |(coords.getD i (0, 0)).2 / (W : ℝ) - ((x1 : ℝ) + 0.5) / (W : ℝ)| ≤
          |(coords.getD i (0, 0)).2 / (W : ℝ) - ((x2 : ℝ) + 0.5) / (W : ℝ)| →
        compute_window_weights coords H W radii i y x2 ≤
          compute_window_weights coords H W radii i y x1) ∧
    (1 < coords.length →
      ∀ i y1 y2 x : ℕ,
        |(coords.getD i (0, 0)).1 / (H : ℝ) - ((y1 : ℝ) + 0.5) / (H : ℝ)| ≤
          |(coords.getD i (0, 0)).1 / (H : ℝ) - ((y2 : ℝ) + 0.5) / (H : ℝ)| →
        compute_window_weights coords H W radii i y2 x ≤
          compute_window_weights coords H W radii i y1 x) := by
  refine ⟨?_, ?_, ?_, ?_⟩
  · intro h1 i y x
    have : ¬ 1 < coords.length := by omega
    simp only [compute_window_weights, if_neg this]
  · intro h i y x
    rw [cww_multi coords H W radii h i y x]
    constructor
    · exact le_of_lt (Real.exp_pos _)
    · rw [Real.exp_le_one_iff]
      have t1 : 0 ≤ ((coords.getD i (0, 0)).1 / (H : ℝ) - ((y : ℝ) + 0.5) / (H : ℝ)) *
          ((coords.getD i (0, 0)).1 / (H : ℝ) - ((y : ℝ) + 0.5) / (H : ℝ)) /
          (2 * (radii.getD i 0 / (H : ℝ)) ^ 2) :=
        div_nonneg (mul_self_nonneg _) (by positivity)
      have t2 : 0 ≤ ((coords.getD i (0, 0)).2 / (W : ℝ) - ((x : ℝ) + 0.5) / (W : ℝ)) *
          ((coords.getD i (0, 0)).2 / (W : ℝ) - ((x : ℝ) + 0.5) / (W : ℝ)) /
          (2 * (radii.getD i 0 / (W : ℝ)) ^ 2) :=
        div_nonneg (mul_self_nonneg _) (by positivity)
      rw [neg_div]
      linarith
  · intro h i y x1 x2 hx
    rw [cww_multi coords H W radii h i y x1, cww_multi coords H W radii h i y x2]
    apply Real.exp_le_exp.mpr
    have hsq : ((coords.getD i (0, 0)).2 / (W : ℝ) - ((x1 : ℝ) + 0.5) / (W : ℝ)) *
        ((coords.getD i (0, 0)).2 / (W : ℝ) - ((x1 : ℝ) + 0.5) / (W : ℝ)) ≤
        ((coords.getD i (0, 0)).2 / (W : ℝ) - ((x2 : ℝ) + 0.5) / (W : ℝ)) *
        ((coords.getD i (0, 0)).2 / (W : ℝ) - ((x2 : ℝ) + 0.5) / (W : ℝ)) := by
      rw [← abs_mul_abs_self ((coords.getD i (0, 0)).2 / (W : ℝ) - ((x1 : ℝ) + 0.5) / (W : ℝ)),
        ← abs_mul_abs_self ((coords.getD i (0, 0)).2 / (W : ℝ) - ((x2 : ℝ) + 0.5) / (W : ℝ))]
      exact mul_le_mul hx hx (abs_nonneg _) (abs_nonneg _)
    have hdiv := div_le_div_of_nonneg_right hsq
      (show (0:ℝ) ≤ 2 * (radii.getD i 0 / (W : ℝ)) ^ 2 by positivity)
    linarith
  · intro h i y1 y2 x hy
    rw [cww_multi coords H W radii h i y1 x, cww_multi coords H W radii h i y2 x]
    apply Real.exp_le_exp.mpr
    have hsq : ((coords.getD i (0, 0)).1 / (H : ℝ) - ((y1 : ℝ) + 0.5) / (H : ℝ)) *
        ((coords.getD i (0, 0)).1 / (H : ℝ) - ((y1 : ℝ) + 0.5) / (H : ℝ)) ≤
        ((coords.getD i (0, 0)).1 / (H : ℝ) - ((y2 : ℝ) + 0.5) / (H : ℝ)) *
        ((coords.getD i (0, 0)).1 / (H : ℝ) - ((y2 : ℝ) + 0.5) / (H : ℝ)) := by
      rw [← abs_mul_abs_self ((coords.getD i (0, 0)).1 / (H : ℝ) - ((y1 : ℝ) + 0.5) / (H : ℝ)),
        ← abs_mul_abs_self ((coords.getD i (0, 0)).1 / (H : ℝ) - ((y2 : ℝ) + 0.5) / (H : ℝ))]
      exact mul_le_mul hy hy (abs_nonneg _) (abs_nonneg _)
    have hdiv := div_le_div_of_nonneg_right hsq
      (show (0:ℝ) ≤ 2 * (radii.getD i 0 / (H : ℝ)) ^ 2 by positivity)
    have hneg : -(((coords.getD i (0, 0)).1 / (H : ℝ) - ((y1 : ℝ) + 0.5) / (H : ℝ)) *
        ((coords.getD i (0, 0)).1 / (H : ℝ) - ((y1 : ℝ) + 0.5) / (H : ℝ))) /
        (2 * (radii.getD i 0 / (H : ℝ)) ^ 2) =
        -((((coords.getD i (0, 0)).1 / (H : ℝ) - ((y1 : ℝ) + 0.5) / (H : ℝ)) *
        ((coords.getD i (0, 0)).1 / (H : ℝ) - ((y1 : ℝ) + 0.5) / (H : ℝ))) /
        (2 * (radii.getD i 0 / (H : ℝ)) ^ 2)) := neg_div _ _
    have hneg2 : -(((coords.getD i (0, 0)).1 / (H : ℝ) - ((y2 : ℝ) + 0.5) / (H : ℝ)) *
        ((coords.getD i (0, 0)).1 / (H : ℝ) - ((y2 : ℝ) + 0.5) / (H : ℝ))) /
        (2 * (radii.getD i 0 / (H : ℝ)) ^ 2) =
        -((((coords.getD i (0, 0)).1 / (H : ℝ) - ((y2 : ℝ) + 0.5) / (H : ℝ)) *
        ((coords.getD i (0, 0)).1 / (H : ℝ) - ((y2 : ℝ) + 0.5) / (H : ℝ))) /
        (2 * (radii.getD i 0 / (H : ℝ)) ^ 2)) := neg_div _ _
    rw [hneg, hneg2]
    linarith

/-- Witness for C8: single-feature all-ones at one input, and bounds plus
(trivial and non-trivial) per-axis decay at a concrete two-feature input. -/
theorem C8_window_weights_witness :
    compute_window_weights [((0.5 : ℝ), (0.5 : ℝ))] 2 2 [1] 0 0 0 = 1 ∧
    (0 ≤ compute_window_weights [((0.25 : ℝ), (0.25 : ℝ)), (1.5, 1.5)] 2 2 [1, 1] 0 0 0 ∧
      compute_window_weights [((0.25 : ℝ), (0.25 : ℝ)), (1.5, 1.5)] 2 2 [1, 1] 0 0 0 ≤ 1) ∧
    compute_window_weights [((0.25 : ℝ), (0.25 : ℝ)), (1.5, 1.5)] 2 2 [1, 1] 0 0 1 ≤
      compute_window_weights [((0.25 : ℝ), (0.25 : ℝ)), (1.5, 1.5)] 2 2 [1, 1] 0 0 0 ∧
    compute_window_weights [((0.25 : ℝ), (0.25 : ℝ)), (1.5, 1.5)] 2 2 [1, 1] 0 1 0 ≤
      compute_window_weights [((0.25 : ℝ), (0.25 : ℝ)), (1.5, 1.5)] 2 2 [1, 1] 0 0 0 := by
  refine ⟨?_, ?_, ?_, ?_⟩
  · exact (C8_window_weights [((0.5 : ℝ), (0.5 : ℝ))] 2 2 [1]).1 (by decide) 0 0 0
  · exact (C8_window_weights [((0.25 : ℝ), (0.25 : ℝ)), (1.5, 1.5)] 2 2 [1, 1]).2.1
      (by decide) 0 0 0
  · apply (C8_window_weights [((0.25 : ℝ), (0.25 : ℝ)), (1.5, 1.5)] 2 2 [1, 1]).2.2.1
      (by decide) 0 0 0 1
    simp only [List.getD]
    norm_num
    rw [abs_of_pos (show (0:ℝ) < 1 / 8 by norm_num),
      abs_of_pos (show (0:ℝ) < 5 / 8 by norm_num)]
    norm_num
  · apply (C8_window_weights [((0.25 : ℝ), (0.25 : ℝ)), (1.5, 1.5)] 2 2 [1, 1]).2.2.2
      (by decide) 0 0 1 0
    simp only [List.getD]
    norm_num
    rw [abs_of_pos (show (0:ℝ) < 1 / 8 by norm_num),
      abs_of_pos (show (0:ℝ) < 5 / 8 by norm_num)]
    norm_num

/-- C5 (code bug): the final `return _compute_kernel_anisotropic(p_opt, ...)`
of `_optimize_convol_params` is reached for BOTH kernel families.  For the
isotropic family `p_opt` is the scalar fitted sigma, so `params[:3]` raises
a `TypeError` (modelled `none`) instead of returning the isotropic kernel
built from the fitted sigma; for the anisotropic family the realized
normalized kernel built from the winning parameters is returned. -/
theorem C5_isotropic_branch_type_error (fieldSrc fieldDst : PField)
    (weights : ℕ → ℕ → ℝ) (mask : ℕ → ℕ → Bool) (cutoff : ℝ)
    (method : FitMethod) :
    optimize_convol_params fieldSrc fieldDst weights mask KernelType.isotropic
      cutoff method = none ∧
    ∃ p : ℝ × ℝ × ℝ × ℝ,
      optimize_convol_params fieldSrc fieldDst weights mask
          KernelType.anisotropic cutoff method =
        some (compute_kernel_anisotropic
          (get_anisotropic_kernel_params p).1
          (get_anisotropic_kernel_params p).2.1
          (get_anisotropic_kernel_params p).2.2.1
          (get_anisotropic_kernel_params p).2.2.2 cutoff) := by
  constructor
  · rfl
  · cases method
    · exact ⟨_, rfl⟩
    · exact ⟨_, rfl⟩

theorem getD_map_range {α : Type} (k : ℕ) (f : ℕ → α) (i : ℕ) (d : α)
    (h : i < k) : ((List.range k).map f).getD i d = f i := by
  rw [List.getD_eq_getElem?_getD, List.getElem?_map, List.getElem?_range h]
  rfl

theorem getLastD_append_singleton {α : Type} (l : List α) (a d : α) :
    (l ++ [a]).getLastD d = a := by
  rw [List.getLastD_concat]

theorem linda_step_last_dims (m n : ℕ) (featureCoords : List (ℝ × ℝ))
    (windowRadii : List ℝ) (psis : List (List ℝ)) (addPerturbations : Bool)
    (perturb : ℕ → ℕ → PField) (e t : ℕ) (hist : List PField) :
    ((linda_step m n featureCoords windowRadii psis addPerturbations perturb
        e t hist).getLastD (nanField m n)).m = m ∧
    ((linda_step m n featureCoords windowRadii psis addPerturbations perturb
        e t hist).getLastD (nanField m n)).n = n := by
  unfold linda_step
  dsimp only
  rw [getLastD_append_singleton]
  cases addPerturbations
  · exact ⟨rfl, rfl⟩
  · exact ⟨rfl, rfl⟩

/-- C1: the forecast entry point returns a `numEnsMembers × numTimesteps`
array of `m × n` fields, in which the entry for member `e` at lead `t` is
the newest field of the rolling history after `t + 1` transitions from the
initial history — the series starts one timestep after the latest input. -/
theorem C1_forecast_shape (m n : ℕ) (precipFields : List PField)
    (advectionField : ℕ → ℕ → ℝ × ℝ) (numTimesteps ariOrder : ℕ)
    (addPerturbations : Bool) (numEnsMembers : ℕ)
    (featureCoords : List (ℝ × ℝ)) (windowRadii : List ℝ)
    (psis : List (List ℝ)) (perturb : ℕ → ℕ → PField) :
    (forecast m n precipFields advectionField numTimesteps ariOrder
        addPerturbations numEnsMembers featureCoords windowRadii psis
        perturb).length = numEnsMembers ∧
    (∀ mem ∈ forecast m n precipFields advectionField numTimesteps ariOrder
        addPerturbations numEnsMembers featureCoords windowRadii psis perturb,
      mem.length = numTimesteps) ∧
    (∀ e t : ℕ, e < numEnsMembers → t < numTimesteps →
      ((forecast m n precipFields advectionField numTimesteps ariOrder
          addPerturbations numEnsMembers featureCoords windowRadii psis
          perturb).getD e []).getD t (nanField m n) =
        (iterSteps (precipFields.drop (precipFields.length - (ariOrder + 1)))
          (linda_step m n featureCoords windowRadii psis addPerturbations
            perturb e)
          (t + 1)).getLastD (nanField m n) ∧
      (((forecast m n precipFields advectionField numTimesteps ariOrder
          addPerturbations numEnsMembers featureCoords windowRadii psis
          perturb).getD e []).getD t (nanField m n)).m = m ∧
      (((forecast m n precipFields advectionField numTimesteps ariOrder
          addPerturbations numEnsMembers featureCoords windowRadii psis
          perturb).getD e []).getD t (nanField m n)).n = n) := by
  refine ⟨?_, ?_, ?_⟩
  · simp [forecast]
  · intro mem hmem
    unfold forecast at hmem
    rcases List.mem_map.mp hmem with ⟨e, _, rfl⟩
    simp
  · intro e t he ht
    unfold forecast
    dsimp only
    rw [getD_map_range numEnsMembers _ e [] he, getD_map_range numTimesteps _ t _ ht]
    refine ⟨rfl, ?_, ?_⟩
    · exact (linda_step_last_dims m n featureCoords windowRadii psis
        addPerturbations perturb e t _).1
    · exact (linda_step_last_dims m n featureCoords windowRadii psis
        addPerturbations perturb e t _).2

/-- Witness for C1 on a concrete run (three stacked 1 × 1 fields,
`ariOrder = 1`, one member, one timestep). -/
theorem C1_forecast_shape_witness :
    (forecast 1 1 [onesField 1 1, onesField 1 1, onesField 1 1]
        (fun _ _ => (0, 0)) 1 1 false 1 [((0.5 : ℝ), (0.5 : ℝ))] [1] [[1]]
        (fun _ _ => nanField 1 1)).length = 1 ∧
    (((forecast 1 1 [onesField 1 1, onesField 1 1, onesField 1 1]
        (fun _ _ => (0, 0)) 1 1 false 1 [((0.5 : ℝ), (0.5 : ℝ))] [1] [[1]]
        (fun _ _ => nanField 1 1)).getD 0 []).getD 0 (nanField 1 1)).m = 1 :=
  ⟨(C1_forecast_shape 1 1 [onesField 1 1, onesField 1 1, onesField 1 1]
      (fun _ _ => (0, 0)) 1 1 false 1 [((0.5 : ℝ), (0.5 : ℝ))] [1] [[1]]
      (fun _ _ => nanField 1 1)).1,
   ((C1_forecast_shape 1 1 [onesField 1 1, onesField 1 1, onesField 1 1]
      (fun _ _ => (0, 0)) 1 1 false 1 [((0.5 : ℝ), (0.5 : ℝ))] [1] [[1]]
      (fun _ _ => nanField 1 1)).2.2 0 0 (by norm_num) (by norm_num)).2.1⟩

end Theorems
